import Mathlib

/-!
Shallow embedding of the snapshot replay harness (`replayMultipleFiles`-style driver):
the `ConcurrencyLimiter` admission gate, the `Promise.all`-based `waitAll`,
the `processContent` dispatch loop, and the mode-specific workflows
`processNodeForValidate` / `processNodeForWrite`, translated from the TypeScript source.
-/

namespace ReplayHarness

/-- `enum Mode` from the source: Write, Compare, Stress, Validate. -/
inductive Mode
  | Write
  | Compare
  | Stress
  | Validate
deriving DecidableEq, Repr

/-- `const numberOfThreads = 4;` -/
def numberOfThreads : Nat := 4

/-- `IWorkerArgs` from the source. The optional field models
`initializeFromSnapshotsDir`, set only in Validate mode. -/
structure IWorkerArgs where
  folder : String
  mode : Mode
  snapFreq : Nat
  initFromSnapshotsDir : Option String := none
deriving DecidableEq, Repr

/-!
## ConcurrencyLimiter as a transition system

State of `class ConcurrencyLimiter`, plus ghost counters for the proof.
`limit` is the signed counter field (decremented on admission, incremented in the
success continuation). `deferredPending` is `this.deferred !== undefined`.
`admitWaiting` records that an `addWork` call is suspended at
`await this.deferred.promise` (line 59); admissions are serialized because
`processContent` awaits each `processNode`, which awaits `addWork`.
`running` counts workers started and not yet settled; `doneOk` / `doneFail` count
worker promises that fulfilled / rejected. `promises` is `this.promises.length`
(one push per started worker, line 72). `resolves` counts `deferred.resolve()` calls
(line 68) and `deferredsCreated` counts `new Deferred()` (line 58).
-/
structure LimiterState where
  capacity : Nat
  limit : Int
  deferredPending : Bool
  admitWaiting : Bool
  running : Nat
  doneOk : Nat
  doneFail : Nat
  promises : Nat
  resolves : Nat
  deferredsCreated : Nat
deriving DecidableEq, Repr

/-- `addWork` when the decremented counter stays nonnegative (skips the `if`
at line 56): the worker is started at once and its promise pushed. -/
def admitFastUpd (s : LimiterState) : LimiterState :=
  { s with limit := s.limit - 1, running := s.running + 1, promises := s.promises + 1 }

/-- `addWork` when the decremented counter goes negative (lines 56-59): a fresh
`Deferred` is installed and the caller suspends before starting the worker. -/
def admitBlockUpd (s : LimiterState) : LimiterState :=
  { s with
    limit := s.limit - 1
    deferredPending := true
    admitWaiting := true
    deferredsCreated := s.deferredsCreated + 1 }

/-- The success continuation installed by `worker().then(...)` (lines 64-71):
increments the counter and, if a `Deferred` is pending, resolves it and clears it. -/
def completeOkUpd (s : LimiterState) : LimiterState :=
  { s with
    limit := s.limit + 1
    running := s.running - 1
    doneOk := s.doneOk + 1
    deferredPending := false
    resolves := s.resolves + (if s.deferredPending then 1 else 0) }

/-- A worker promise rejecting: `.then` was given no rejection handler, so the
continuation of lines 64-71 is skipped entirely — the counter is NOT restored and
a pending `Deferred` is untouched. -/
def completeFailUpd (s : LimiterState) : LimiterState :=
  { s with running := s.running - 1, doneFail := s.doneFail + 1 }

/-- The suspended `addWork` caller resuming after its `Deferred` was resolved
(past line 59): it starts the worker and pushes the promise (lines 64-72). -/
def resumeUpd (s : LimiterState) : LimiterState :=
  { s with admitWaiting := false, running := s.running + 1, promises := s.promises + 1 }

/-- One interleaving step of the limiter. Admissions are mutually serialized
(`processContent` awaits each submission), so both admit steps require that no
other admission is suspended; worker completions can occur at any time. -/
inductive LimiterStep : LimiterState → LimiterState → Prop
  | admitFast (s : LimiterState) (hw : s.admitWaiting = false) (hl : 0 ≤ s.limit - 1) :
      LimiterStep s (admitFastUpd s)
  | admitBlock (s : LimiterState) (hw : s.admitWaiting = false) (hl : s.limit - 1 < 0) :
      LimiterStep s (admitBlockUpd s)
  | completeOk (s : LimiterState) (hr : 0 < s.running) :
      LimiterStep s (completeOkUpd s)
  | completeFail (s : LimiterState) (hr : 0 < s.running) :
      LimiterStep s (completeFailUpd s)
  | resume (s : LimiterState) (hw : s.admitWaiting = true) (hd : s.deferredPending = false) :
      LimiterStep s (resumeUpd s)

/-- `new ConcurrencyLimiter(c)`: counter starts at the capacity, nothing pending. -/
def initLimiter (c : Nat) : LimiterState :=
  { capacity := c
    limit := (c : Int)
    deferredPending := false
    admitWaiting := false
    running := 0
    doneOk := 0
    doneFail := 0
    promises := 0
    resolves := 0
    deferredsCreated := 0 }

/-- States reachable from a freshly constructed limiter of capacity `c`. -/
inductive LimiterReachable (c : Nat) : LimiterState → Prop
  | init : LimiterReachable c (initLimiter c)
  | step {s t : LimiterState} :
      LimiterReachable c s → LimiterStep s t → LimiterReachable c t

/-- Inductive invariant of the limiter: the counter equals capacity minus started
work minus leaked slots (minus one while an admission is suspended); a pending
`Deferred` implies a suspended admitter and counter exactly `-1`; the promises
list has exactly one entry per started worker; every created `Deferred` except a
currently pending one has been resolved exactly once. -/
def LimiterInv (c : Nat) (s : LimiterState) : Prop :=
  s.capacity = c ∧
  s.limit = (c : Int) - s.running - s.doneFail - (if s.admitWaiting then 1 else 0) ∧
  (s.deferredPending = true → s.admitWaiting = true) ∧
  (s.deferredPending = true → s.limit = -1) ∧
  (s.deferredPending = false → 0 ≤ s.limit) ∧
  s.promises = s.running + s.doneOk + s.doneFail ∧
  s.resolves + (if s.deferredPending then 1 else 0) = s.deferredsCreated

theorem limiterInv_init (c : Nat) : LimiterInv c (initLimiter c) := by
  simp [LimiterInv, initLimiter]

theorem limiterInv_step {c : Nat} {s t : LimiterState}
    (ih : LimiterInv c s) (hs : LimiterStep s t) : LimiterInv c t := by
  obtain ⟨hc, hlim, hpw, hpl, hnn, hpr, hres⟩ := ih
  cases hs with
  | admitFast hw hl =>
    cases hdp : s.deferredPending <;>
      simp_all [LimiterInv, admitFastUpd] <;> omega
  | admitBlock hw hl =>
    cases hdp : s.deferredPending <;>
      simp_all [LimiterInv, admitBlockUpd] <;> omega
  | completeOk hr =>
    cases hdp : s.deferredPending <;>
      simp_all [LimiterInv, completeOkUpd] <;>
        cases haw : s.admitWaiting <;> simp_all <;> omega
  | completeFail hr =>
    cases hdp : s.deferredPending <;>
      simp_all [LimiterInv, completeFailUpd] <;>
        cases haw : s.admitWaiting <;> simp_all <;> omega
  | resume hw hd =>
    cases hdp : s.deferredPending <;>
      simp_all [LimiterInv, resumeUpd] <;> omega

theorem limiterInv_of_reachable {c : Nat} {s : LimiterState}
    (h : LimiterReachable c s) : LimiterInv c s := by
  induction h with
  | init => exact limiterInv_init c
  | step _ hs ih => exact limiterInv_step ih hs

/-- The number of admitted jobs currently charged against the gate:
capacity minus the counter field. -/
def inFlight (s : LimiterState) : Int := (s.capacity : Int) - s.limit

/-- A gate state with all four slots taken (reachable by four fast admissions). -/
def fullState : LimiterState :=
  admitFastUpd (admitFastUpd (admitFastUpd (admitFastUpd (initLimiter numberOfThreads))))

theorem fullState_reachable : LimiterReachable numberOfThreads fullState :=
  LimiterReachable.step
    (LimiterReachable.step
      (LimiterReachable.step
        (LimiterReachable.step LimiterReachable.init
          (LimiterStep.admitFast _ (by decide) (by decide)))
        (LimiterStep.admitFast _ (by decide) (by decide)))
      (LimiterStep.admitFast _ (by decide) (by decide)))
    (LimiterStep.admitFast _ (by decide) (by decide))

/-- A gate state with all four slots taken and a fifth admission suspended on the
pending `Deferred`. -/
def blockedFull : LimiterState := admitBlockUpd fullState

theorem blockedFull_reachable : LimiterReachable numberOfThreads blockedFull :=
  LimiterReachable.step fullState_reachable
    (LimiterStep.admitBlock _ (by decide) (by decide))

/-- C1: in every reachable state of the dispatcher's gate (capacity
`numberOfThreads = 4`), at most `numberOfThreads` admitted jobs run concurrently,
and at every quiescent point (no admission suspended mid-`addWork`) the gate's
counter satisfies `0 ≤ inFlight ≤ capacity`. -/
theorem concurrency_bounded (s : LimiterState)
    (h : LimiterReachable numberOfThreads s) :
    s.running ≤ numberOfThreads ∧
      (s.admitWaiting = false →
        0 ≤ inFlight s ∧ inFlight s ≤ (numberOfThreads : Int)) := by
  obtain ⟨hc, hlim, hpw, hpl, hnn, hpr, hres⟩ := limiterInv_of_reachable h
  cases hdp : s.deferredPending <;> cases haw : s.admitWaiting <;>
    simp_all [inFlight, numberOfThreads] <;> omega

theorem concurrency_bounded_witness :
    fullState.running ≤ numberOfThreads ∧
      0 ≤ inFlight fullState ∧ inFlight fullState ≤ (numberOfThreads : Int) :=
  ⟨(concurrency_bounded fullState fullState_reachable).1,
    (concurrency_bounded fullState fullState_reachable).2 rfl⟩

/-- C3 counterexample: from the reachable gate state with four running workers and a
fifth admission suspended on the pending `Deferred`, a worker promise REJECTING is a
legal completion after which the counter is unchanged (not incremented) and the
pending waiter is neither resolved nor cleared: `worker().then(...)` installs no
rejection handler, so the continuation of lines 64-71 is skipped on failure. -/
theorem completion_on_failure_cex :
    LimiterReachable numberOfThreads blockedFull ∧
    LimiterStep blockedFull (completeFailUpd blockedFull) ∧
    (completeFailUpd blockedFull).limit = blockedFull.limit ∧
    ¬ (completeFailUpd blockedFull).limit = blockedFull.limit + 1 ∧
    blockedFull.deferredPending = true ∧
    (completeFailUpd blockedFull).deferredPending = true ∧
    (completeFailUpd blockedFull).resolves = blockedFull.resolves :=
  ⟨blockedFull_reachable, LimiterStep.completeFail _ (by decide),
    by decide, by decide, by decide, by decide, by decide⟩

/-- C3 amended: for every reachable gate state with a running worker, both completion
transitions are legal, and: on a SUCCESSFUL completion the counter is incremented and
a pending waiter is resolved exactly once and cleared (never left pending; the
`assert(this.limit === 0)` at the resolution holds); on a FAILED completion the
success continuation is skipped, so the counter is not incremented and a pending
waiter is neither resolved nor cleared. Across the whole run every created `Deferred`
other than a currently pending one has been resolved exactly once. -/
theorem completion_behavior {s : LimiterState}
    (h : LimiterReachable numberOfThreads s) (hr : 0 < s.running) :
    LimiterStep s (completeOkUpd s) ∧
    (completeOkUpd s).limit = s.limit + 1 ∧
    (completeOkUpd s).deferredPending = false ∧
    (s.deferredPending = true →
      (completeOkUpd s).resolves = s.resolves + 1 ∧ s.limit + 1 = 0) ∧
    (s.deferredPending = false → (completeOkUpd s).resolves = s.resolves) ∧
    LimiterStep s (completeFailUpd s) ∧
    (completeFailUpd s).limit = s.limit ∧
    (completeFailUpd s).deferredPending = s.deferredPending ∧
    (completeFailUpd s).resolves = s.resolves ∧
    s.resolves + (if s.deferredPending then 1 else 0) = s.deferredsCreated := by
  obtain ⟨hc, hlim, hpw, hpl, hnn, hpr, hres⟩ := limiterInv_of_reachable h
  refine ⟨LimiterStep.completeOk _ hr, ?_, ?_, ?_, ?_,
    LimiterStep.completeFail _ hr, ?_, ?_, ?_, ?_⟩ <;>
      cases hdp : s.deferredPending <;>
        simp_all [completeOkUpd, completeFailUpd] <;> omega

theorem completion_behavior_witness :
    (completeOkUpd blockedFull).limit = blockedFull.limit + 1 ∧
    (completeOkUpd blockedFull).resolves = blockedFull.resolves + 1 :=
  ⟨(completion_behavior blockedFull_reachable (by decide)).2.1,
    ((completion_behavior blockedFull_reachable (by decide)).2.2.2.1 (by decide)).1⟩

/-!
## waitAll / Promise.all

`waitAll` is `Promise.all(this.promises)` (line 76). Each pushed worker promise is
modelled by its settled outcome: a settle time and either fulfillment (`Except.ok`)
or the rejection reason (`Except.error`). `Promise.all` fulfills when the last of
the promises fulfills, and rejects with the reason of the earliest promise to
reject; it never cancels the remaining promises (JS has no cancellation), so every
job's own outcome is fixed independently of the aggregate.
-/

/-- The earliest rejection among the settled promise outcomes, if any
(time of the temporally first rejecting promise together with its reason). -/
def firstRejection : List (Nat × Except String Unit) → Option (Nat × String)
  | [] => none
  | (_, Except.ok _) :: rest => firstRejection rest
  | (t, Except.error e) :: rest =>
    match firstRejection rest with
    | none => some (t, e)
    | some (u, f) => if u < t then some (u, f) else some (t, e)

/-- The time at which the last of the promises settles. -/
def lastSettle : List (Nat × Except String Unit) → Nat
  | [] => 0
  | j :: rest => max j.1 (lastSettle rest)

/-- `Promise.all(this.promises)`: rejects at the earliest rejection with its reason,
otherwise fulfills once every promise has fulfilled. -/
def waitAll (jobs : List (Nat × Except String Unit)) : Nat × Except String Unit :=
  match firstRejection jobs with
  | some (t, e) => (t, Except.error e)
  | none => (lastSettle jobs, Except.ok ())

theorem firstRejection_eq_none_iff (jobs : List (Nat × Except String Unit)) :
    firstRejection jobs = none ↔ ∀ j ∈ jobs, j.2 = Except.ok () := by
  induction jobs with
  | nil => simp [firstRejection]
  | cons j rest ih =>
    obtain ⟨t, o⟩ := j
    cases o with
    | ok u =>
      cases u
      simpa [firstRejection] using ih
    | error e =>
      simp only [firstRejection]
      constructor
      · intro hnone
        exfalso
        cases hfr : firstRejection rest with
        | none => simp [hfr] at hnone
        | some p =>
          obtain ⟨u, f⟩ := p
          rw [hfr] at hnone
          by_cases hlt : u < t <;> simp [hlt] at hnone
      · intro hall
        exfalso
        have := hall (t, Except.error e) (by simp)
        simp at this

theorem firstRejection_spec (jobs : List (Nat × Except String Unit)) (t : Nat) (e : String)
    (h : firstRejection jobs = some (t, e)) :
    (t, Except.error e) ∈ jobs ∧ ∀ u f, (u, Except.error f) ∈ jobs → t ≤ u := by
  induction jobs generalizing t e with
  | nil => simp [firstRejection] at h
  | cons j rest ih =>
    obtain ⟨v, o⟩ := j
    cases o with
    | ok w =>
      cases w
      simp only [firstRejection] at h
      obtain ⟨hmem, hmin⟩ := ih t e h
      refine ⟨by simp [hmem], ?_⟩
      intro u f hu
      rcases List.mem_cons.mp hu with h1 | h2
      · exact absurd (congrArg Prod.snd h1) (by simp)
      · exact hmin u f h2
    | error e' =>
      simp only [firstRejection] at h
      cases hfr : firstRejection rest with
      | none =>
        rw [hfr] at h
        simp only [Option.some.injEq, Prod.mk.injEq] at h
        obtain ⟨ht, he⟩ := h
        subst ht; subst he
        refine ⟨by simp, ?_⟩
        intro u f hu
        rcases List.mem_cons.mp hu with h1 | h2
        · simp [Prod.ext_iff] at h1
          omega
        · exfalso
          have hall := (firstRejection_eq_none_iff rest).mp hfr
          have := hall (u, Except.error f) h2
          simp at this
      | some p =>
        obtain ⟨u0, f0⟩ := p
        rw [hfr] at h
        obtain ⟨hmem0, hmin0⟩ := ih u0 f0 hfr
        by_cases hlt : u0 < v
        · simp only [hlt, if_true, Option.some.injEq, Prod.mk.injEq] at h
          obtain ⟨ht, he⟩ := h
          subst ht; subst he
          refine ⟨by simp [hmem0], ?_⟩
          intro u f hu
          rcases List.mem_cons.mp hu with h1 | h2
          · simp [Prod.ext_iff] at h1
            omega
          · exact hmin0 u f h2
        · simp only [hlt, if_false, Option.some.injEq, Prod.mk.injEq] at h
          obtain ⟨ht, he⟩ := h
          subst ht; subst he
          refine ⟨by simp, ?_⟩
          intro u f hu
          rcases List.mem_cons.mp hu with h1 | h2
          · simp [Prod.ext_iff] at h1
            omega
          · exact le_trans (by omega) (hmin0 u f h2)

theorem le_lastSettle (jobs : List (Nat × Except String Unit)) :
    ∀ j ∈ jobs, j.1 ≤ lastSettle jobs := by
  induction jobs with
  | nil => simp
  | cons j rest ih =>
    intro k hk
    rcases List.mem_cons.mp hk with h1 | h2
    · subst h1; simp [lastSettle]
    · exact le_trans (ih k h2) (by simp [lastSettle])

/-- C2: `waitAll` fulfills only when every admitted job's promise has fulfilled, and
then not before the last of them settles; if some job rejected, it surfaces the
earliest rejection (the surfaced pair is one of the jobs' own settled outcomes and no
rejected job settled earlier) — the other jobs' outcomes are input data the aggregate
never alters, i.e. every job still runs to completion (no cancellation); and the
`promises` array holds exactly one entry per started job, so `waitAll` observes every
submitted job exactly once. -/
theorem waitAll_total (jobs : List (Nat × Except String Unit))
    {s : LimiterState} (h : LimiterReachable numberOfThreads s) :
    ((waitAll jobs).2 = Except.ok () →
      ∀ j ∈ jobs, j.2 = Except.ok () ∧ j.1 ≤ (waitAll jobs).1) ∧
    (∀ t e, waitAll jobs = (t, Except.error e) →
      (t, Except.error e) ∈ jobs ∧ ∀ u f, (u, Except.error f) ∈ jobs → t ≤ u) ∧
    s.promises = s.running + s.doneOk + s.doneFail := by
  refine ⟨?_, ?_, (limiterInv_of_reachable h).2.2.2.2.2.1⟩
  · intro hok j hj
    cases hfr : firstRejection jobs with
    | some p =>
      obtain ⟨t, e⟩ := p
      simp [waitAll, hfr] at hok
    | none =>
      have hall := (firstRejection_eq_none_iff jobs).mp hfr
      exact ⟨hall j hj, by simpa [waitAll, hfr] using le_lastSettle jobs j hj⟩
  · intro t e hw
    cases hfr : firstRejection jobs with
    | none => simp [waitAll, hfr] at hw
    | some p =>
      obtain ⟨t', e'⟩ := p
      simp only [waitAll, hfr, Prod.mk.injEq, Except.error.injEq] at hw
      obtain ⟨ht, he⟩ := hw
      subst ht; subst he
      exact firstRejection_spec jobs t' e' hfr

theorem waitAll_total_witness :
    (3 : Nat) ≤ (waitAll [(3, Except.ok ()), (7, Except.ok ())]).1 :=
  ((waitAll_total
      ([(3, Except.ok ()), (7, Except.ok ())] : List (Nat × Except String Unit))
      LimiterReachable.init).1 rfl (3, Except.ok ()) (by simp)).2

/-!
## Directory model, processNodeForValidate, and the processContent loop
-/

/-- One entry of an `fs.readdirSync(..., { withFileTypes: true })` listing. -/
structure DirEntry where
  name : String
  isDirectory : Bool
deriving DecidableEq, Repr

/-- `processNodeForValidate` (lines 168-189): when `folder/src_snapshots` does not
exist (modelled as `none`) the folder contributes no jobs; otherwise each immediate
subdirectory `v` of `src_snapshots` contributes one job whose
`initializeFromSnapshotsDir` is `folder/src_snapshots/v` (non-directory entries are
skipped by the `continue` at line 183). -/
def processNodeForValidate (data : IWorkerArgs) (srcSnapshots : Option (List DirEntry)) :
    List IWorkerArgs :=
  match srcSnapshots with
  | none => []
  | some listing =>
    (listing.filter (fun n => n.isDirectory)).map (fun n =>
      { data with
        initFromSnapshotsDir := some (data.folder ++ "/src_snapshots/" ++ n.name) })

/-- Everything the `processContent` loop (lines 121-159) consults about one node of
the corpus root listing: the dirent, whether `folder/messages.json` exists, the
`src_snapshots` listing (for Validate mode; `none` when the directory is absent),
and whether the folder's replay job would fail (the opaque engine outcome). -/
structure FolderNode where
  name : String
  isDirectory : Bool
  hasMessages : Bool
  srcSnapshots : Option (List DirEntry)
  jobFails : Bool
deriving DecidableEq, Repr

/-- Lines 121-130: a node is given work only when it is a directory whose
`messages.json` exists; anything else is `continue`d over. -/
def eligible (n : FolderNode) : Bool := n.isDirectory && n.hasMessages

/-- The folders skipped with the logged error at line 128 (cannot locate the
`messages.json` operation log): directories lacking their operation log. -/
def loggedSkips (nodes : List FolderNode) : List String :=
  (nodes.filter (fun n => n.isDirectory && !n.hasMessages)).map (fun n => n.name)

/-- Jobs one eligible folder contributes, by mode (the `switch` at lines 149-158):
Validate fans out via `processNodeForValidate`; Write submits exactly one job (via
`processNode` from `processNodeForWrite`, line 225); Compare/Stress submit exactly
one job. `snapFreq` is 50 for Stress, else 1000 (line 142). -/
def folderJobs (fileLocation : String) (mode : Mode) (f : FolderNode) : List IWorkerArgs :=
  let data : IWorkerArgs :=
    { folder := fileLocation ++ "/" ++ f.name
      mode := mode
      snapFreq := if mode = Mode.Stress then 50 else 1000 }
  match mode with
  | Mode.Validate => processNodeForValidate data f.srcSnapshots
  | _ => [data]

/-- All jobs submitted over the run: only eligible folders reach the mode switch. -/
def processContentJobs (fileLocation : String) (mode : Mode) (nodes : List FolderNode) :
    List IWorkerArgs :=
  (nodes.filter eligible).bind (folderJobs fileLocation mode)

/-- The settled outcomes reaching `Promise.all` (line 76) in a concurrent run in
which every admission completed — one per eligible folder, rejected with the
folder's name as reason exactly when its job fails. NOTE: when capacity-many jobs
fail, an admission can instead block forever inside `addWork` (see the limiter's
stuck state), so this list is NOT the run's outcome in general; it is used below
only for an invariance statement: an ineligible folder contributes nothing to it. -/
def concOutcomes (nodes : List FolderNode) : List (Nat × Except String Unit) :=
  (nodes.filter eligible).map (fun n =>
    (0, if n.jobFails then Except.error n.name else Except.ok ()))

/-- Inline fallback (`concurrently = false`, or `worker_threads` unavailable):
`processNode` awaits `processOneFile` directly (line 249), which rethrows any engine
failure (line 114); the loop of lines 121-159 has no try/catch, so the exception
aborts `processContent` at once. Result: the folders whose jobs actually ran, and
whether the run succeeded. -/
def runInline : List FolderNode → List String × Bool
  | [] => ([], true)
  | n :: rest =>
    if eligible n then
      if n.jobFails then ([n.name], false)
      else
        let r := runInline rest
        (n.name :: r.1, r.2)
    else runInline rest

theorem runInline_ok_iff (nodes : List FolderNode) :
    (runInline nodes).2 = true ↔ ∀ n ∈ nodes, eligible n = true → n.jobFails = false := by
  induction nodes with
  | nil => simp [runInline]
  | cons n rest ih =>
    by_cases he : eligible n = true
    · by_cases hf : n.jobFails = true
      · simp only [runInline, he, hf, if_true]
        constructor
        · intro h; simp at h
        · intro h
          exact absurd (h n (List.mem_cons_self n rest) he) (by simp [hf])
      · have hf' : n.jobFails = false := by
          cases hjf : n.jobFails <;> simp_all
        simp [runInline, he, hf', ih, List.forall_mem_cons]
    · have he' : eligible n = false := by
        cases hee : eligible n <;> simp_all
      simp [runInline, he', ih, List.forall_mem_cons]

theorem runInline_abort (pre post : List FolderNode) (f : FolderNode)
    (hpre : ∀ n ∈ pre, eligible n = true → n.jobFails = false)
    (he : eligible f = true) (hf : f.jobFails = true) :
    runInline (pre ++ f :: post)
      = ((pre.filter eligible).map (fun n => n.name) ++ [f.name], false) := by
  induction pre with
  | nil => simp [runInline, he, hf]
  | cons n rest ih =>
    have hrec := ih (fun m hm hme => hpre m (List.mem_cons_of_mem n hm) hme)
    by_cases hne : eligible n = true
    · have hnf : n.jobFails = false := hpre n (List.mem_cons_self n rest) hne
      simp [runInline, hne, hnf, hrec]
    · have hne' : eligible n = false := by
        cases hee : eligible n <;> simp_all
      simp [runInline, hne', hrec]

theorem runInline_skips_ineligible (l1 l2 : List FolderNode) (f : FolderNode)
    (he : eligible f = false) :
    runInline (l1 ++ f :: l2) = runInline (l1 ++ l2) := by
  induction l1 with
  | nil => simp [runInline, he]
  | cons n rest ih =>
    by_cases hne : eligible n = true
    · by_cases hnf : n.jobFails = true
      · simp [runInline, hne, hnf]
      · have hnf' : n.jobFails = false := by
          cases hjf : n.jobFails <;> simp_all
        simp [runInline, hne, hnf', ih]
    · have hne' : eligible n = false := by
        cases hee : eligible n <;> simp_all
      simp [runInline, hne', ih]

theorem waitAll_ok_iff (jobs : List (Nat × Except String Unit)) :
    (waitAll jobs).2 = Except.ok () ↔ ∀ j ∈ jobs, j.2 = Except.ok () := by
  constructor
  · intro h
    cases hfr : firstRejection jobs with
    | some p =>
      obtain ⟨t, e⟩ := p
      simp [waitAll, hfr] at h
    | none => exact (firstRejection_eq_none_iff jobs).mp hfr
  · intro hall
    simp [waitAll, (firstRejection_eq_none_iff jobs).mpr hall]

/-- After four worker failures from `blockedFull`: every slot was consumed by a
rejected promise (whose `then` continuation never ran), the fifth admission is still
suspended on the pending `Deferred`, and nothing is running. -/
def deadState : LimiterState :=
  completeFailUpd (completeFailUpd (completeFailUpd (completeFailUpd blockedFull)))

theorem deadState_reachable : LimiterReachable numberOfThreads deadState :=
  LimiterReachable.step
    (LimiterReachable.step
      (LimiterReachable.step
        (LimiterReachable.step blockedFull_reachable
          (LimiterStep.completeFail _ (by decide)))
        (LimiterStep.completeFail _ (by decide)))
      (LimiterStep.completeFail _ (by decide)))
    (LimiterStep.completeFail _ (by decide))

/-- With an admission suspended, the `Deferred` pending and no worker running, the
limiter can make no transition at all: admissions are serialized behind the
suspended one, there is no completion left to run, and only the success
continuation (line 68) could have resolved the `Deferred`. -/
theorem limiter_stuck (s : LimiterState) (hw : s.admitWaiting = true)
    (hd : s.deferredPending = true) (hr : s.running = 0) :
    ∀ t, ¬ LimiterStep s t := by
  intro t hstep
  cases hstep <;> simp_all

/-- C7: in Validate mode a folder with no `src_snapshots` directory contributes zero
jobs, and a folder whose `src_snapshots` listing has `k` immediate subdirectories
contributes exactly `k` jobs, the `i`-th of which is the folder's job data with its
source-snapshot directory pointing at the `i`-th version's archive folder. -/
theorem validate_fanout (data : IWorkerArgs) (listing : List DirEntry)
    (i : Nat) (hi : i < (listing.filter (fun n => n.isDirectory)).length) :
    processNodeForValidate data none = [] ∧
    (processNodeForValidate data (some listing)).length
      = (listing.filter (fun n => n.isDirectory)).length ∧
    (processNodeForValidate data (some listing)).get
        ⟨i, by simpa [processNodeForValidate] using hi⟩
      = { data with
          initFromSnapshotsDir := some (data.folder ++ "/src_snapshots/"
            ++ ((listing.filter (fun n => n.isDirectory)).get ⟨i, hi⟩).name) } := by
  refine ⟨rfl, by simp [processNodeForValidate], ?_⟩
  simp [processNodeForValidate]

theorem validate_fanout_witness :
    (processNodeForValidate
        { folder := "doc1", mode := Mode.Validate, snapFreq := 1000 }
        (some [⟨"1.0", true⟩, ⟨"2.0", true⟩, ⟨"3.0", true⟩])).get ⟨1, by decide⟩
      = { folder := "doc1", mode := Mode.Validate, snapFreq := 1000,
          initFromSnapshotsDir := some "doc1/src_snapshots/2.0" } := by
  have h := (validate_fanout
    { folder := "doc1", mode := Mode.Validate, snapFreq := 1000 }
    [⟨"1.0", true⟩, ⟨"2.0", true⟩, ⟨"3.0", true⟩] 1 (by decide)).2.2
  exact h.trans (by decide)

/-- C5 counterexample: one folder's job failure CAN prevent other folders' jobs from
being submitted and run, in both paths. Inline: with two eligible folders whose
first job fails, `processOneFile` rethrows (line 114), the `processContent` loop has
no try/catch, and the second folder's job never runs. Concurrent: from the reachable
state with four running workers and a fifth admission suspended on the `Deferred`,
four failing completions (each skipping the success continuation of lines 64-71)
lead to the reachable state `deadState`: the admission is still suspended, the
`Deferred` still pending, no worker running, all four slots leaked — by
`limiter_stuck` no limiter transition is enabled any more, so the fifth folder's
job is never submitted (`promises` stays at 4) and the run hangs before `waitAll`. -/
theorem failure_isolation_cex :
    runInline [⟨"A", true, true, none, true⟩, ⟨"B", true, true, none, false⟩]
        = (["A"], false) ∧
    "B" ∉ (runInline [⟨"A", true, true, none, true⟩, ⟨"B", true, true, none, false⟩]).1 ∧
    LimiterReachable numberOfThreads deadState ∧
    deadState.admitWaiting = true ∧
    deadState.deferredPending = true ∧
    deadState.running = 0 ∧
    deadState.doneFail = numberOfThreads ∧
    deadState.promises = numberOfThreads ∧
    ¬ LimiterStep deadState (completeOkUpd deadState) ∧
    ¬ LimiterStep deadState (resumeUpd deadState) :=
  ⟨by decide, by decide, deadState_reachable, by decide, by decide, by decide,
    by decide, by decide,
    limiter_stuck deadState (by decide) (by decide) (by decide) _,
    limiter_stuck deadState (by decide) (by decide) (by decide) _⟩

/-- C5 amended: failure isolation is partial. Inline-fallback path: the first
failing job's rethrown exception aborts the loop — exactly the eligible folders up
to and including the first failing one run, later folders' jobs are prevented —
while the run still reports failure precisely when some eligible folder's job fails.
Concurrent path: a job failure never aborts the loop (at every quiescent point the
next admission step is enabled, no matter how many jobs have failed), and whenever
the loop does complete, `waitAll` reports failure precisely when some submitted
job's promise rejected; but each failure permanently consumes a gate slot and only
the success continuation resolves a pending `Deferred`: while fewer than
`numberOfThreads` jobs have failed, a pending admission still has a running worker
left that can release it, whereas once `numberOfThreads` jobs have failed with an
admission suspended and no worker running, no transition is enabled any more — the
suspended folder's job is never submitted and the run hangs unreported. -/
theorem failure_isolation (pre post : List FolderNode) (f : FolderNode)
    (hpre : ∀ n ∈ pre, eligible n = true → n.jobFails = false)
    (he : eligible f = true) (hf : f.jobFails = true)
    (s : LimiterState) (hs : LimiterReachable numberOfThreads s)
    (jobs : List (Nat × Except String Unit)) :
    runInline (pre ++ f :: post)
        = ((pre.filter eligible).map (fun n => n.name) ++ [f.name], false) ∧
    ((runInline (pre ++ f :: post)).2 = true
        ↔ ∀ n ∈ pre ++ f :: post, eligible n = true → n.jobFails = false) ∧
    (s.admitWaiting = false →
      LimiterStep s (admitFastUpd s) ∨ LimiterStep s (admitBlockUpd s)) ∧
    (s.deferredPending = true → s.doneFail < numberOfThreads → 0 < s.running) ∧
    (s.admitWaiting = true → s.deferredPending = true → s.running = 0 →
      ∀ t, ¬ LimiterStep s t) ∧
    ((waitAll jobs).2 = Except.ok () ↔ ∀ j ∈ jobs, j.2 = Except.ok ()) := by
  obtain ⟨hc, hlim, hpw, hpl, hnn, hpr, hres⟩ := limiterInv_of_reachable hs
  refine ⟨runInline_abort pre post f hpre he hf, runInline_ok_iff _, ?_, ?_, ?_,
    waitAll_ok_iff jobs⟩
  · intro hw
    by_cases hl : 0 ≤ s.limit - 1
    · exact Or.inl (LimiterStep.admitFast s hw hl)
    · exact Or.inr (LimiterStep.admitBlock s hw (by omega))
  · intro hd hdf
    have h1 := hpw hd
    have h2 := hpl hd
    simp [h1, numberOfThreads] at hlim
    simp [numberOfThreads] at hdf
    omega
  · exact fun hw hd hr => limiter_stuck s hw hd hr

theorem failure_isolation_witness :
    runInline [⟨"A", true, true, none, false⟩, ⟨"B", true, true, none, true⟩,
        ⟨"C", true, true, none, false⟩]
      = (["A", "B"], false) ∧
    ¬ LimiterStep deadState (completeFailUpd deadState) := by
  have h := failure_isolation [⟨"A", true, true, none, false⟩]
    [⟨"C", true, true, none, false⟩] ⟨"B", true, true, none, true⟩
    (by decide) (by decide) (by decide)
    deadState deadState_reachable []
  exact ⟨h.1.trans (by decide),
    h.2.2.2.2.1 (by decide) (by decide) (by decide) (completeFailUpd deadState)⟩

/-- C8: for every mode, a test-case folder lacking its `messages.json` operation log
contributes zero jobs and is logged and skipped: inserting such a folder anywhere in
the corpus changes neither the submitted job list, nor the concurrent outcomes handed
to `waitAll`, nor the inline run's result — so it never errors the run and cannot
affect its overall success or failure. -/
theorem skip_not_fail (fileLocation : String) (mode : Mode)
    (l1 l2 : List FolderNode) (f : FolderNode)
    (hd : f.isDirectory = true) (hm : f.hasMessages = false) :
    processContentJobs fileLocation mode (l1 ++ f :: l2)
        = processContentJobs fileLocation mode (l1 ++ l2) ∧
    f.name ∈ loggedSkips (l1 ++ f :: l2) ∧
    concOutcomes (l1 ++ f :: l2) = concOutcomes (l1 ++ l2) ∧
    runInline (l1 ++ f :: l2) = runInline (l1 ++ l2) := by
  have he : eligible f = false := by simp [eligible, hm]
  refine ⟨?_, ?_, ?_, runInline_skips_ineligible l1 l2 f he⟩
  · simp [processContentJobs, List.filter_append, he]
  · simp [loggedSkips, List.filter_append, hd, hm]
  · simp [concOutcomes, List.filter_append, he]

theorem skip_not_fail_witness :
    processContentJobs "root" Mode.Compare
        [⟨"A", true, true, none, false⟩, ⟨"B", true, false, none, false⟩]
      = processContentJobs "root" Mode.Compare [⟨"A", true, true, none, false⟩] ∧
    "B" ∈ loggedSkips
        [⟨"A", true, true, none, false⟩, ⟨"B", true, false, none, false⟩] := by
  have h := skip_not_fail "root" Mode.Compare [⟨"A", true, true, none, false⟩] []
    ⟨"B", true, false, none, false⟩ rfl rfl
  exact ⟨h.1, h.2.1⟩

/-!
## Write-mode migration: processNodeForWrite

A directory's files are modelled as an association list from file name to content,
which is exactly how the copy loop addresses them (`fs.copyFileSync` to
`newSrcDir/subNode.name` overwrites the destination file of that name).
-/

/-- Store `v` under key `k`, replacing an existing binding in place or appending a
new one: the effect of `fs.copyFileSync` on the destination directory, and of
JavaScript object/map update generally. -/
def setKey {α : Type} : List (String × α) → String → α → List (String × α)
  | [], k, v => [(k, v)]
  | (k', v') :: rest, k, v =>
    if k' = k then (k, v) :: rest else (k', v') :: setKey rest k v

/-- The names present in a directory. -/
def keysOf {α : Type} (l : List (String × α)) : List String := l.map (fun p => p.1)

/-- Look a name up in a directory. -/
def lookupKey {α : Type} : List (String × α) → String → Option α
  | [], _ => none
  | (k', v') :: rest, k => if k' = k then some v' else lookupKey rest k

theorem keysOf_setKey {α : Type} (l : List (String × α)) (k : String) (v : α) :
    keysOf (setKey l k v)
      = if k ∈ keysOf l then keysOf l else keysOf l ++ [k] := by
  induction l with
  | nil => simp [setKey, keysOf]
  | cons p rest ih =>
    obtain ⟨k', v'⟩ := p
    by_cases hk : k' = k
    · subst hk
      simp [setKey, keysOf]
    · simp only [setKey, hk, if_false]
      simp only [keysOf, List.map_cons] at ih ⊢
      rw [ih]
      by_cases hmem : k ∈ List.map (fun p : String × α => p.1) rest
      · simp [hmem, List.mem_cons, Ne.symm hk]
      · simp [hmem, List.mem_cons, Ne.symm hk]

theorem nodup_keysOf_setKey {α : Type} (l : List (String × α)) (k : String) (v : α)
    (h : (keysOf l).Nodup) : (keysOf (setKey l k v)).Nodup := by
  rw [keysOf_setKey]
  by_cases hmem : k ∈ keysOf l
  · simpa [hmem] using h
  · rw [if_neg hmem, List.nodup_append]
    refine ⟨h, List.nodup_singleton k, ?_⟩
    intro a ha hb
    rw [List.mem_singleton] at hb
    subst hb
    exact hmem ha

theorem lookupKey_setKey_self {α : Type} (l : List (String × α)) (k : String) (v : α) :
    lookupKey (setKey l k v) k = some v := by
  induction l with
  | nil => simp [setKey, lookupKey]
  | cons p rest ih =>
    obtain ⟨k', v'⟩ := p
    by_cases hk : k' = k
    · subst hk; simp [setKey, lookupKey]
    · simp [setKey, lookupKey, hk, ih]

theorem lookupKey_setKey_ne {α : Type} (l : List (String × α)) (k k' : String) (v : α)
    (h : k' ≠ k) : lookupKey (setKey l k v) k' = lookupKey l k' := by
  induction l with
  | nil => simp [setKey, lookupKey, Ne.symm h]
  | cons p rest ih =>
    obtain ⟨k0, v0⟩ := p
    by_cases hk : k0 = k
    · subst hk
      simp [setKey, lookupKey, Ne.symm h]
    · simp only [setKey, hk, if_false, lookupKey]
      by_cases hk' : k0 = k' <;> simp [hk', ih]

theorem setKey_of_lookupKey_eq {α : Type} (l : List (String × α)) (k : String) (v : α)
    (h : lookupKey l k = some v) : setKey l k v = l := by
  induction l with
  | nil => simp [lookupKey] at h
  | cons p rest ih =>
    obtain ⟨k', v'⟩ := p
    by_cases hk : k' = k
    · subst hk
      simp only [lookupKey, if_true] at h
      obtain rfl : v' = v := by simpa using h
      simp [setKey]
    · simp only [lookupKey, hk, if_false] at h
      simp [setKey, hk, ih h]

theorem lookupKey_mem {α : Type} (l : List (String × α)) (k : String) (v : α)
    (h : lookupKey l k = some v) : (k, v) ∈ l := by
  induction l with
  | nil => simp [lookupKey] at h
  | cons p rest ih =>
    obtain ⟨k', v'⟩ := p
    by_cases hk : k' = k
    · subst hk
      simp only [lookupKey, if_true] at h
      obtain rfl : v' = v := by simpa using h
      simp
    · simp only [lookupKey, hk, if_false] at h
      simp [ih h]

/-- One dirent of `current_snapshots` together with the file's content (the content
is irrelevant when the entry is a directory). -/
structure CEntry where
  name : String
  isDirectory : Bool
  content : String
deriving DecidableEq, Repr

/-- The failure modes of `processNodeForWrite`: the two existence `assert`s of
lines 204 and 207, and the per-entry `assert(!subNode.isDirectory())` of line 220. -/
inductive WriteError
  | noCurrentSnapshots
  | noVersionFile
  | subdirInCurrent
deriving DecidableEq, Repr

/-- The copy loop of lines 219-222: each dirent of `current_snapshots` is asserted
to be a regular file and then copied into the archive folder, overwriting by name.
An assertion failure throws, aborting the folder (the partially copied archive is
not consulted further because the run aborts). -/
def copyAll (archive : List (String × String)) :
    List CEntry → Except WriteError (List (String × String))
  | [] => Except.ok archive
  | e :: rest =>
    if e.isDirectory then Except.error WriteError.subdirInCurrent
    else copyAll (setKey archive e.name e.content) rest

/-- The per-folder state `processNodeForWrite` (lines 198-229) consults: whether
`current_snapshots` and its `snapshotVersion.json` exist, the parsed
`snapshotVersion` string, the dirents of `current_snapshots`, and the
`src_snapshots/<version>` archive folders keyed by version string. -/
structure WriteFolderFS where
  hasCurrentSnapshots : Bool
  hasVersionFile : Bool
  snapshotVersion : String
  currentEntries : List CEntry
  archives : List (String × List (String × String))
deriving DecidableEq, Repr

/-- The migration phase of `processNodeForWrite` (lines 203-222): assert the
baseline directory and version stamp exist, create or reuse
`src_snapshots/<version>` (`mkdirSync` with `recursive: true` is a no-op on an
existing directory and keeps its files), then copy every baseline file into it,
overwriting by name. -/
def migrateForWrite (fs : WriteFolderFS) : Except WriteError WriteFolderFS :=
  if fs.hasCurrentSnapshots = false then Except.error WriteError.noCurrentSnapshots
  else if fs.hasVersionFile = false then Except.error WriteError.noVersionFile
  else
    match copyAll ((lookupKey fs.archives fs.snapshotVersion).getD []) fs.currentEntries with
    | Except.error e => Except.error e
    | Except.ok archive =>
        Except.ok { fs with archives := setKey fs.archives fs.snapshotVersion archive }

/-- The Write-mode sweep of the corpus: each eligible folder's
`processNodeForWrite` is awaited in turn; a failed assertion throws and—because the
`processContent` loop has no try/catch—aborts the whole run. -/
def runWrite : List (String × WriteFolderFS) → Except WriteError (List String)
  | [] => Except.ok []
  | (nm, fs) :: rest =>
    match migrateForWrite fs with
    | Except.error e => Except.error e
    | Except.ok _ =>
      match runWrite rest with
      | Except.error e => Except.error e
      | Except.ok names => Except.ok (nm :: names)

theorem copyAll_error_of_subdir (archive : List (String × String)) (cur : List CEntry)
    (e : CEntry) (he : e ∈ cur) (hd : e.isDirectory = true) :
    copyAll archive cur = Except.error WriteError.subdirInCurrent := by
  induction cur generalizing archive with
  | nil => simp at he
  | cons c rest ih =>
    rcases List.mem_cons.mp he with h1 | h2
    · subst h1
      simp [copyAll, hd]
    · by_cases hc : c.isDirectory = true
      · simp [copyAll, hc]
      · have hc' : c.isDirectory = false := by cases hcc : c.isDirectory <;> simp_all
        simp [copyAll, hc', ih _ h2]

theorem copyAll_error_eq (archive : List (String × String)) (cur : List CEntry)
    (e : WriteError) (h : copyAll archive cur = Except.error e) :
    e = WriteError.subdirInCurrent := by
  induction cur generalizing archive with
  | nil => simp [copyAll] at h
  | cons c rest ih =>
    by_cases hc : c.isDirectory = true
    · simp [copyAll, hc] at h
      exact h.symm
    · have hc' : c.isDirectory = false := by cases hcc : c.isDirectory <;> simp_all
      simp only [copyAll, hc', Bool.false_eq_true, if_false] at h
      exact ih _ h

theorem copyAll_nodup (archive : List (String × String)) (cur : List CEntry)
    (r : List (String × String)) (h : copyAll archive cur = Except.ok r)
    (hA : (keysOf archive).Nodup) : (keysOf r).Nodup := by
  induction cur generalizing archive with
  | nil =>
    simp only [copyAll, Except.ok.injEq] at h
    rwa [← h]
  | cons c rest ih =>
    by_cases hc : c.isDirectory = true
    · simp [copyAll, hc] at h
    · have hc' : c.isDirectory = false := by cases hcc : c.isDirectory <;> simp_all
      simp only [copyAll, hc', Bool.false_eq_true, if_false] at h
      exact ih _ h (nodup_keysOf_setKey archive c.name c.content hA)

theorem copyAll_lookup_untouched (archive : List (String × String)) (cur : List CEntry)
    (r : List (String × String)) (k : String)
    (h : copyAll archive cur = Except.ok r)
    (hk : ∀ e ∈ cur, e.name ≠ k) :
    lookupKey r k = lookupKey archive k := by
  induction cur generalizing archive with
  | nil =>
    simp only [copyAll, Except.ok.injEq] at h
    rw [← h]
  | cons c rest ih =>
    by_cases hc : c.isDirectory = true
    · simp [copyAll, hc] at h
    · have hc' : c.isDirectory = false := by cases hcc : c.isDirectory <;> simp_all
      simp only [copyAll, hc', Bool.false_eq_true, if_false] at h
      rw [ih _ h (fun e he => hk e (List.mem_cons_of_mem c he))]
      exact lookupKey_setKey_ne archive c.name k c.content
        (Ne.symm (hk c (List.mem_cons_self c rest)))

theorem copyAll_lookup (archive : List (String × String)) (cur : List CEntry)
    (r : List (String × String))
    (h : copyAll archive cur = Except.ok r)
    (hn : (cur.map (fun e => e.name)).Nodup) :
    ∀ e ∈ cur, lookupKey r e.name = some e.content := by
  induction cur generalizing archive with
  | nil => simp
  | cons c rest ih =>
    by_cases hc : c.isDirectory = true
    · simp [copyAll, hc] at h
    · have hc' : c.isDirectory = false := by cases hcc : c.isDirectory <;> simp_all
      simp only [copyAll, hc', Bool.false_eq_true, if_false] at h
      obtain ⟨hhead, htail⟩ :
          (∀ x ∈ rest, ¬x.name = c.name) ∧ (List.map (fun e => e.name) rest).Nodup := by
        simpa using hn
      intro e he
      rcases List.mem_cons.mp he with h1 | h2
      · subst h1
        have hrest : ∀ x ∈ rest, x.name ≠ e.name := fun x hx => hhead x hx
        rw [copyAll_lookup_untouched _ _ _ _ h hrest]
        exact lookupKey_setKey_self archive e.name e.content
      · exact ih _ h htail e h2

theorem runWrite_abort (pre post : List (String × WriteFolderFS)) (nm : String)
    (fs : WriteFolderFS) (e : WriteError)
    (hpre : ∀ p ∈ pre, ∃ r, migrateForWrite p.2 = Except.ok r)
    (hf : migrateForWrite fs = Except.error e) :
    runWrite (pre ++ (nm, fs) :: post) = Except.error e := by
  induction pre with
  | nil => simp [runWrite, hf]
  | cons p rest ih =>
    obtain ⟨np, fsp⟩ := p
    obtain ⟨r, hr⟩ := hpre (np, fsp) (List.mem_cons_self _ _)
    simp [runWrite, hr, ih (fun q hq => hpre q (List.mem_cons_of_mem _ hq))]

/-- C9: in Write mode, a folder whose `current_snapshots` directory does not exist
fails the assert of line 204, and one whose `snapshotVersion.json` stamp does not
exist fails the assert of line 207; either failure is fatal for that folder and —
the `processContent` loop having no try/catch — aborts the whole Write-mode run.
Under the precondition that both exist, those two assertion branches are
unreachable: the migration can then fail only with the distinct per-entry assert of
the copy loop. -/
theorem write_requires_baseline (fs : WriteFolderFS)
    (pre post : List (String × WriteFolderFS)) (nm : String)
    (hpre : ∀ p ∈ pre, ∃ r, migrateForWrite p.2 = Except.ok r) :
    (fs.hasCurrentSnapshots = false →
      migrateForWrite fs = Except.error WriteError.noCurrentSnapshots ∧
      runWrite (pre ++ (nm, fs) :: post) = Except.error WriteError.noCurrentSnapshots) ∧
    (fs.hasCurrentSnapshots = true → fs.hasVersionFile = false →
      migrateForWrite fs = Except.error WriteError.noVersionFile ∧
      runWrite (pre ++ (nm, fs) :: post) = Except.error WriteError.noVersionFile) ∧
    (fs.hasCurrentSnapshots = true → fs.hasVersionFile = true →
      migrateForWrite fs ≠ Except.error WriteError.noCurrentSnapshots ∧
      migrateForWrite fs ≠ Except.error WriteError.noVersionFile) := by
  refine ⟨?_, ?_, ?_⟩
  · intro hc
    have hm : migrateForWrite fs = Except.error WriteError.noCurrentSnapshots := by
      simp [migrateForWrite, hc]
    exact ⟨hm, runWrite_abort pre post nm fs _ hpre hm⟩
  · intro hc hv
    have hm : migrateForWrite fs = Except.error WriteError.noVersionFile := by
      simp [migrateForWrite, hc, hv]
    exact ⟨hm, runWrite_abort pre post nm fs _ hpre hm⟩
  · intro hc hv
    cases hcopy : copyAll ((lookupKey fs.archives fs.snapshotVersion).getD [])
        fs.currentEntries with
    | error e =>
      have := copyAll_error_eq _ _ e hcopy
      subst this
      constructor <;> simp [migrateForWrite, hc, hv, hcopy]
    | ok r =>
      constructor <;> simp [migrateForWrite, hc, hv, hcopy]

theorem write_requires_baseline_witness :
    migrateForWrite ⟨false, false, "1.0", [], []⟩
        = Except.error WriteError.noCurrentSnapshots ∧
    runWrite [("doc1", ⟨false, false, "1.0", [], []⟩)]
        = Except.error WriteError.noCurrentSnapshots :=
  (write_requires_baseline ⟨false, false, "1.0", [], []⟩ [] [] "doc1" (by simp)).1 rfl

/-- C10: during the Write-mode migration every dirent directly inside
`current_snapshots` is asserted to be a regular file: if the listing contains any
subdirectory (for example a leftover `FailedSnapshots` folder), the copy loop fails
the `assert(!subNode.isDirectory())` of line 220 — the migration errors for that
folder rather than copying or skipping the subdirectory. -/
theorem migration_rejects_subdir (fs : WriteFolderFS) (e : CEntry)
    (hc : fs.hasCurrentSnapshots = true) (hv : fs.hasVersionFile = true)
    (he : e ∈ fs.currentEntries) (hd : e.isDirectory = true) :
    migrateForWrite fs = Except.error WriteError.subdirInCurrent := by
  simp [migrateForWrite, hc, hv, copyAll_error_of_subdir _ _ e he hd]

theorem migration_rejects_subdir_witness :
    migrateForWrite
        ⟨true, true, "1.0",
          [⟨"a.json", false, "x"⟩, ⟨"FailedSnapshots", true, ""⟩], []⟩
      = Except.error WriteError.subdirInCurrent :=
  migration_rejects_subdir _ ⟨"FailedSnapshots", true, ""⟩ rfl rfl (by simp) rfl

/-- C6: archive folders are keyed by the version-stamp string. A Write run archives
the baseline into `src_snapshots/<version>`, appending that folder name exactly once
when new and reusing it when present — exactly one archive folder per distinct
version ever written; a second run with an unchanged version stamp creates no new
archive folder (single folder), and overwrites the archived files by name: the
folder's file-name set stays duplicate-free and each baseline file name maps to the
latest copied content. -/
theorem write_archival (fs fs1 fs2 : WriteFolderFS) (cur2 : List CEntry)
    (hAk : (keysOf fs.archives).Nodup)
    (hAv : ∀ a ∈ fs.archives, (keysOf a.2).Nodup)
    (h2n : (cur2.map (fun e => e.name)).Nodup)
    (h1 : migrateForWrite fs = Except.ok fs1)
    (h2 : migrateForWrite { fs1 with currentEntries := cur2 } = Except.ok fs2) :
    keysOf fs1.archives
        = (if fs.snapshotVersion ∈ keysOf fs.archives then keysOf fs.archives
           else keysOf fs.archives ++ [fs.snapshotVersion]) ∧
    keysOf fs2.archives = keysOf fs1.archives ∧
    (keysOf fs2.archives).Nodup ∧
    (keysOf ((lookupKey fs2.archives fs.snapshotVersion).getD [])).Nodup ∧
    (∀ e ∈ cur2,
      lookupKey ((lookupKey fs2.archives fs.snapshotVersion).getD []) e.name
        = some e.content) := by
  by_cases hc : fs.hasCurrentSnapshots = false
  · simp [migrateForWrite, hc] at h1
  by_cases hv : fs.hasVersionFile = false
  · simp [migrateForWrite, hc, hv] at h1
  rw [migrateForWrite, if_neg hc, if_neg hv] at h1
  cases hcopy : copyAll ((lookupKey fs.archives fs.snapshotVersion).getD [])
      fs.currentEntries with
  | error e => rw [hcopy] at h1; cases h1
  | ok r1 =>
    rw [hcopy] at h1
    simp only [Except.ok.injEq] at h1
    subst h1
    have hA0 : (keysOf ((lookupKey fs.archives fs.snapshotVersion).getD [])).Nodup := by
      cases hl : lookupKey fs.archives fs.snapshotVersion with
      | none => simp [keysOf]
      | some a =>
        simpa using hAv (fs.snapshotVersion, a) (lookupKey_mem _ _ _ hl)
    have hr1 : (keysOf r1).Nodup := copyAll_nodup _ _ _ hcopy hA0
    rw [migrateForWrite] at h2
    simp only [if_neg hc, if_neg hv] at h2
    rw [lookupKey_setKey_self] at h2
    simp only [Option.getD_some] at h2
    cases hcopy2 : copyAll r1 cur2 with
    | error e => rw [hcopy2] at h2; cases h2
    | ok r2 =>
      rw [hcopy2] at h2
      simp only [Except.ok.injEq] at h2
      subst h2
      have hkeys1 : keysOf (setKey fs.archives fs.snapshotVersion r1)
          = (if fs.snapshotVersion ∈ keysOf fs.archives then keysOf fs.archives
             else keysOf fs.archives ++ [fs.snapshotVersion]) :=
        keysOf_setKey fs.archives fs.snapshotVersion r1
      have hvmem : fs.snapshotVersion ∈ keysOf (setKey fs.archives fs.snapshotVersion r1) := by
        rw [hkeys1]
        by_cases hmem : fs.snapshotVersion ∈ keysOf fs.archives <;> simp [hmem]
      refine ⟨hkeys1, ?_, ?_, ?_, ?_⟩
      · rw [keysOf_setKey, if_pos hvmem]
      · rw [keysOf_setKey, if_pos hvmem]
        exact nodup_keysOf_setKey fs.archives fs.snapshotVersion r1 hAk
      · rw [lookupKey_setKey_self]
        exact copyAll_nodup _ _ _ hcopy2 hr1
      · rw [lookupKey_setKey_self]
        exact copyAll_lookup _ _ _ hcopy2 h2n

theorem write_archival_witness :
    keysOf (⟨true, true, "1.0", [⟨"a.json", false, "y"⟩],
        [("1.0", [("a.json", "y")])]⟩ : WriteFolderFS).archives
      = keysOf (⟨true, true, "1.0", [⟨"a.json", false, "x"⟩],
        [("1.0", [("a.json", "x")])]⟩ : WriteFolderFS).archives ∧
    lookupKey
        ((lookupKey (⟨true, true, "1.0", [⟨"a.json", false, "y"⟩],
            [("1.0", [("a.json", "y")])]⟩ : WriteFolderFS).archives "1.0").getD [])
        "a.json"
      = some "y" := by
  have h := write_archival
    ⟨true, true, "1.0", [⟨"a.json", false, "x"⟩], []⟩
    ⟨true, true, "1.0", [⟨"a.json", false, "x"⟩], [("1.0", [("a.json", "x")])]⟩
    ⟨true, true, "1.0", [⟨"a.json", false, "y"⟩], [("1.0", [("a.json", "y")])]⟩
    [⟨"a.json", false, "y"⟩]
    (by simp [keysOf]) (by simp) (by simp) rfl rfl
  exact ⟨h.2.1, h.2.2.2.2 ⟨"a.json", false, "y"⟩ (by simp)⟩

/-!
## Sequencing inside processNodeForWrite

In the concurrent path, `await processNode(data, ...)` (line 225) resolves when
`limiter.addWork` returns — that is, once the worker has been constructed and its
promise pushed (lines 253-254, 72); `addWork` never awaits the worker promise `p`
itself. The version-stamp rewrite of line 228 therefore runs as soon as the job has
been submitted, possibly while the worker is still running. The machine below has
one transition per orchestrator action of lines 217-228, plus an independent
job-completion event enabled from submission onwards.
-/

/-- The observable events of one folder's Write-mode workflow. -/
inductive WriteEvent
  | migrate
  | submitJob
  | jobComplete
  | writeStamp
deriving DecidableEq, Repr

/-- Control point of the orchestrator inside `processNodeForWrite`. -/
inductive WritePC
  | start
  | migrated
  | submitted
  | stamped
deriving DecidableEq, Repr

structure WriteSeqState where
  pc : WritePC
  jobRunning : Bool
  jobDone : Bool
  trace : List WriteEvent
deriving DecidableEq, Repr

/-- `migrate`: the baseline copy of lines 217-222. `submit`: `addWork` returns with
the worker started (line 225). `complete`: the worker settles, at any time while it
runs. `stamp`: the `fs.writeFileSync` of line 228 — enabled as soon as the job was
submitted, with NO dependence on its completion. -/
inductive WriteSeqStep : WriteSeqState → WriteSeqState → Prop
  | migrate (s : WriteSeqState) (h : s.pc = WritePC.start) :
      WriteSeqStep s
        { s with pc := WritePC.migrated, trace := s.trace ++ [WriteEvent.migrate] }
  | submit (s : WriteSeqState) (h : s.pc = WritePC.migrated) :
      WriteSeqStep s
        { s with
          pc := WritePC.submitted
          jobRunning := true
          trace := s.trace ++ [WriteEvent.submitJob] }
  | complete (s : WriteSeqState) (h : s.jobRunning = true) :
      WriteSeqStep s
        { s with
          jobRunning := false
          jobDone := true
          trace := s.trace ++ [WriteEvent.jobComplete] }
  | stamp (s : WriteSeqState) (h : s.pc = WritePC.submitted) :
      WriteSeqStep s
        { s with pc := WritePC.stamped, trace := s.trace ++ [WriteEvent.writeStamp] }

def initWriteSeq : WriteSeqState := ⟨WritePC.start, false, false, []⟩

inductive WriteSeqReachable : WriteSeqState → Prop
  | init : WriteSeqReachable initWriteSeq
  | step {s t : WriteSeqState} :
      WriteSeqReachable s → WriteSeqStep s t → WriteSeqReachable t

/-- The inline fallback (`concurrently = false` or worker threads unavailable):
`processNode` awaits `processOneFile` to completion (line 249) between the migration
and the stamp rewrite, so the folder's three steps are strictly sequenced. -/
def inlineWriteTrace : List WriteEvent :=
  [WriteEvent.migrate, WriteEvent.jobComplete, WriteEvent.writeStamp]

/-- The machine has exactly seven reachable states. -/
def WriteSeqInv (s : WriteSeqState) : Prop :=
  s = ⟨WritePC.start, false, false, []⟩ ∨
  s = ⟨WritePC.migrated, false, false, [WriteEvent.migrate]⟩ ∨
  s = ⟨WritePC.submitted, true, false,
        [WriteEvent.migrate, WriteEvent.submitJob]⟩ ∨
  s = ⟨WritePC.submitted, false, true,
        [WriteEvent.migrate, WriteEvent.submitJob, WriteEvent.jobComplete]⟩ ∨
  s = ⟨WritePC.stamped, true, false,
        [WriteEvent.migrate, WriteEvent.submitJob, WriteEvent.writeStamp]⟩ ∨
  s = ⟨WritePC.stamped, false, true,
        [WriteEvent.migrate, WriteEvent.submitJob, WriteEvent.jobComplete,
          WriteEvent.writeStamp]⟩ ∨
  s = ⟨WritePC.stamped, false, true,
        [WriteEvent.migrate, WriteEvent.submitJob, WriteEvent.writeStamp,
          WriteEvent.jobComplete]⟩

theorem writeSeqInv_of_reachable {s : WriteSeqState}
    (h : WriteSeqReachable s) : WriteSeqInv s := by
  induction h with
  | init => exact Or.inl rfl
  | step hr hs ih =>
    cases hs with
    | migrate h =>
      rcases ih with rfl | rfl | rfl | rfl | rfl | rfl | rfl <;> simp_all [WriteSeqInv]
    | submit h =>
      rcases ih with rfl | rfl | rfl | rfl | rfl | rfl | rfl <;> simp_all [WriteSeqInv]
    | complete h =>
      rcases ih with rfl | rfl | rfl | rfl | rfl | rfl | rfl <;> simp_all [WriteSeqInv]
    | stamp h =>
      rcases ih with rfl | rfl | rfl | rfl | rfl | rfl | rfl <;> simp_all [WriteSeqInv]

/-- Event `a` occurs before event `b` in the trace, whenever `b` occurs at all. -/
abbrev precedes (a b : WriteEvent) (tr : List WriteEvent) : Prop :=
  b ∈ tr → a ∈ tr ∧ List.indexOf a tr < List.indexOf b tr

/-- The schedule in which the version stamp is rewritten while the worker is still
running, and the job completes only afterwards. -/
def raceTrace : List WriteEvent :=
  [WriteEvent.migrate, WriteEvent.submitJob, WriteEvent.writeStamp,
    WriteEvent.jobComplete]

theorem raceState_reachable :
    WriteSeqReachable ⟨WritePC.stamped, false, true, raceTrace⟩ := by
  have h1 := WriteSeqReachable.step WriteSeqReachable.init
    (WriteSeqStep.migrate _ rfl)
  have h2 := WriteSeqReachable.step h1 (WriteSeqStep.submit _ rfl)
  have h3 := WriteSeqReachable.step h2 (WriteSeqStep.stamp _ rfl)
  have h4 := WriteSeqReachable.step h3 (WriteSeqStep.complete _ rfl)
  exact h4

/-- C4 counterexample: a completed Write-mode run of the concurrent path in which
the version-stamp rewrite occurs strictly BEFORE the replay job completes: line 228
runs once `await processNode` resolves, which happens at submission because
`addWork` returns without awaiting the worker promise. The claimed ordering
(replay completes before the stamp rewrite) fails on this reachable schedule. -/
theorem write_sequencing_cex :
    WriteSeqReachable ⟨WritePC.stamped, false, true, raceTrace⟩ ∧
    WriteEvent.jobComplete ∈ raceTrace ∧
    List.indexOf WriteEvent.writeStamp raceTrace
      < List.indexOf WriteEvent.jobComplete raceTrace :=
  ⟨raceState_reachable, by decide, by decide⟩

/-- C4 amended: within one folder in Write mode the migration strictly precedes the
replay job's submission, and the submission strictly precedes both the version-stamp
rewrite and the job's completion; in the inline-fallback path the job moreover
completes strictly before the stamp rewrite. In the concurrent path the stamp
rewrite is NOT ordered after job completion (only after submission), since
`await processNode` resolves once `addWork` has pushed the worker promise. -/
theorem write_sequencing {s : WriteSeqState} (h : WriteSeqReachable s) :
    precedes WriteEvent.migrate WriteEvent.submitJob s.trace ∧
    precedes WriteEvent.submitJob WriteEvent.writeStamp s.trace ∧
    precedes WriteEvent.submitJob WriteEvent.jobComplete s.trace ∧
    (s.jobDone = true → WriteEvent.jobComplete ∈ s.trace) ∧
    precedes WriteEvent.migrate WriteEvent.jobComplete inlineWriteTrace ∧
    precedes WriteEvent.jobComplete WriteEvent.writeStamp inlineWriteTrace := by
  rcases writeSeqInv_of_reachable h with rfl | rfl | rfl | rfl | rfl | rfl | rfl <;>
    exact ⟨by decide, by decide, by decide, by decide, by decide, by decide⟩

theorem write_sequencing_witness :
    WriteEvent.migrate ∈ raceTrace ∧
      List.indexOf WriteEvent.migrate raceTrace
        < List.indexOf WriteEvent.submitJob raceTrace :=
  (write_sequencing raceState_reachable).1 (by decide)

end ReplayHarness
